import Mathlib

/-!
Shallow embedding of `src/scripts/fetch-activity.py`: a pipeline that fetches
GitHub activity (repositories, commits, public events), aggregates it into
per-repository summaries, a 12-week commit histogram and a list of Pages
sites, and serializes the result.

Timestamps are modelled as integer seconds (the script manipulates
timezone-aware datetimes and ISO-8601 strings; for UTC-normalized values both
subtraction and string comparison agree with integer-second semantics).
Python's `int(x)` conversion truncates toward zero, which on exact quotients
of integers is `Int.tdiv`.  The remote API is modelled as an oracle from page
numbers to either an HTTP error or a list of records; the data returned by
the fetchers is the input of the aggregation functions.
-/

namespace Activity

/-- GITHUB_USER constant of the script. -/
def GITHUB_USER : String := "radaiko"

/-- WEEKS constant of the script. -/
def WEEKS : Nat := 12

/-- week_seconds = 7 * 24 * 60 * 60. -/
def weekSeconds : Int := 7 * 24 * 60 * 60

/-- The repository excluded from Pages discovery: f-string "{GITHUB_USER}.github.io". -/
def rootSiteName : String := GITHUB_USER ++ ".github.io"

/-- Fields of a repository record used by main (from the /user/repos response). -/
structure RepoInfo where
  full_name : String
  name : String
  owner_login : String
  has_pages : Bool
  fork : Bool
  description : Option String
  language : Option String
deriving DecidableEq, Repr

/-- A commit record: only the author date (commit.commit.author.date) is used. -/
structure Commit where
  date : Int
deriving DecidableEq, Repr

/-- Fields of a public event record used by main. payload_commits is the length
of payload.commits (only the length is read). -/
structure Event where
  type : String
  created_at : Int
  repo_name : String
  payload_commits : Nat
deriving DecidableEq, Repr

/-- The per-repository summary record built by main. -/
structure RepoSummary where
  fullName : String
  name : String
  owner : String
  isOwn : Bool
  commits : Nat
  lastActivity : Int
deriving DecidableEq, Repr

/-- A Pages-site descriptor. -/
structure PagesSite where
  name : String
  url : String
  description : String
  language : String
deriving DecidableEq, Repr

/-- The output document written to data/activity.json. -/
structure Output where
  generatedAt : Int
  repos : List RepoSummary
  weeklyCommits : List Nat
  totalCommits : Nat
  activeWeeks : Nat
  pages : List PagesSite
deriving DecidableEq, Repr

/-- week_index computation: int(age_seconds / week_seconds) followed by the
guard 0 <= week_index < WEEKS and the index WEEKS - 1 - week_index.  Returns
the histogram index to increment, or none when the guard rejects. -/
def weekBucket (now date : Int) : Option Nat :=
  let weekIndex := Int.tdiv (now - date) weekSeconds
  if 0 ≤ weekIndex ∧ weekIndex < 12 then some (11 - weekIndex).toNat else none

/-- weekly_commits[b] += k, a no-op when the guard rejected the record. -/
def bucketAdd (wc : List Nat) (b : Option Nat) (k : Nat) : List Nat :=
  match b with
  | none => wc
  | some i => wc.set i (wc.getD i 0 + k)

/-- The Pages-site record appended for a qualifying repository. -/
def pagesEntry (r : RepoInfo) : PagesSite :=
  { name := r.name
    url := "https://" ++ GITHUB_USER ++ ".github.io/" ++ r.name ++ "/"
    description := r.description.getD ""
    language := r.language.getD "" }

/-- The guard for Pages discovery: has_pages and not fork, then
short_name != "radaiko.github.io". -/
def pagesQualifies (r : RepoInfo) : Bool :=
  r.has_pages && !r.fork && r.name ≠ rootSiteName

/-- Accumulator state of the authenticated aggregation loop. -/
structure AuthState where
  repos : List RepoSummary
  wc : List Nat
  pages : List PagesSite
deriving Repr

/-- Assignment repos[full_name] = s on an insertion-ordered dictionary: replaces
in place when the key exists, otherwise appends. -/
def upsertSummary (l : List RepoSummary) (s : RepoSummary) : List RepoSummary :=
  match l with
  | [] => [s]
  | x :: xs => if x.fullName = s.fullName then s :: xs else x :: upsertSummary xs s

/-- max(c.commit.author.date for c in commits) over a nonempty list. -/
def listMaxDate (c : Commit) (cs : List Commit) : Int :=
  cs.foldl (fun a b => max a b.date) c.date

/-- The summary record built for a repository with a nonempty commit list:
commits = len(commits), lastActivity = max commit date. -/
def mkSummary (r : RepoInfo) (c : Commit) (rest : List Commit) : RepoSummary :=
  { fullName := r.full_name
    name := r.name
    owner := r.owner_login
    isOwn := r.owner_login == GITHUB_USER
    commits := (c :: rest).length
    lastActivity := listMaxDate c rest }

/-- Body of the authenticated per-repository loop: Pages discovery, then (when
the fetched commit list is nonempty) the summary record and week bucketing. -/
def processRepoAuth (now : Int) (st : AuthState) (rc : RepoInfo × List Commit) : AuthState :=
  let r := rc.1
  let pages := if pagesQualifies r then st.pages ++ [pagesEntry r] else st.pages
  match rc.2 with
  | [] => { st with pages := pages }
  | c :: rest =>
    { repos := upsertSummary st.repos (mkSummary r c rest)
      wc := (c :: rest).foldl (fun w cm => bucketAdd w (weekBucket now cm.date) 1) st.wc
      pages := pages }

/-- Splitting a character list on a separator, keeping empty fields: the
semantics of Python str.split with a one-character separator.  cur holds the
characters of the current field in reverse. -/
def splitChars (sep : Char) : List Char → List Char → List String
  | [], cur => [String.mk cur.reverse]
  | c :: rest, cur =>
    if c = sep then String.mk cur.reverse :: splitChars sep rest []
    else splitChars sep rest (c :: cur)

/-- repo_name.split("/"). -/
def splitSlash (s : String) : List String := splitChars '/' s.data []

/-- repo_name.split("/")[-1]. -/
def shortNameOf (repoName : String) : String := (splitSlash repoName).getLastD ""

/-- repo_name.split("/")[0]. -/
def ownerOf (repoName : String) : String := (splitSlash repoName).headD ""

/-- Accumulator state of the fallback aggregation loop. -/
structure FallState where
  repos : List RepoSummary
  wc : List Nat
deriving Repr

/-- The fresh summary inserted by the fallback loop when repo_name is not yet
a key: commits = 0 and lastActivity = created_at. -/
def freshSummary (e : Event) : RepoSummary :=
  { fullName := e.repo_name
    name := shortNameOf e.repo_name
    owner := ownerOf e.repo_name
    isOwn := ownerOf e.repo_name == GITHUB_USER
    commits := 0
    lastActivity := e.created_at }

/-- The insert-if-absent step of the fallback loop. -/
def ensureRepo (e : Event) (l : List RepoSummary) : List RepoSummary :=
  if l.any (fun s => s.fullName = e.repo_name) then l
  else l ++ [freshSummary e]

/-- repos[k].commits += cc, and lastActivity = t when t > lastActivity. -/
def addCommitsTo (k : String) (cc : Nat) (t : Int) : List RepoSummary → List RepoSummary
  | [] => []
  | s :: rest =>
    if s.fullName = k then
      { s with commits := s.commits + cc
               lastActivity := if t > s.lastActivity then t else s.lastActivity } :: rest
    else s :: addCommitsTo k cc t rest

/-- Body of the fallback per-event loop: skip records that are not push events
or that are older than the cutoff, synthesize a count of 1 for an empty
embedded commit list, then update the repository map and the histogram. -/
def processEvent (now cutoff : Int) (st : FallState) (e : Event) : FallState :=
  if e.type ≠ "PushEvent" then st
  else if e.created_at < cutoff then st
  else
    let cc := if e.payload_commits = 0 then 1 else e.payload_commits
    { repos := addCommitsTo e.repo_name cc e.created_at (ensureRepo e st.repos)
      wc := bucketAdd st.wc (weekBucket now e.created_at) cc }

/-- The sort key name.lower() of a Pages entry, as the list of code points
after ASCII lowercasing (the names handled here are ASCII). -/
def lowerKey (s : String) : List Nat :=
  s.data.map (fun c => if 65 ≤ c.toNat ∧ c.toNat ≤ 90 then c.toNat + 32 else c.toNat)

/-- Lexicographic comparison of code-point lists: the semantics of Python
string comparison of the sort keys. -/
def keyLe : List Nat → List Nat → Bool
  | [], _ => true
  | _ :: _, [] => false
  | x :: xs, y :: ys => if x < y then true else if y < x then false else keyLe xs ys

/-- The pages_sites.sort comparison: lowercased name ascending. -/
def pageLe (p q : PagesSite) : Prop := keyLe (lowerKey p.name) (lowerKey q.name) = true

instance : DecidableRel pageLe := fun p q => by unfold pageLe; exact instDecidableEqBool _ _

/-- Final-stage serialization shared by both paths: sort repos by commits
descending (stable), sum the histogram, count nonzero buckets, sort pages by
lowercased name ascending. -/
def finalize (now : Int) (repos : List RepoSummary) (wc : List Nat)
    (pages : List PagesSite) : Output :=
  { generatedAt := now
    repos := List.insertionSort (fun a b => b.commits ≤ a.commits) repos
    weeklyCommits := wc
    totalCommits := wc.sum
    activeWeeks := (wc.filter (fun w => 0 < w)).length
    pages := List.insertionSort pageLe pages }

/-- The authenticated path of main, as a function of the run time and of the
fetched data: each accessible repository paired with the commits fetched for
it. -/
def runAuth (now : Int) (data : List (RepoInfo × List Commit)) : Output :=
  let st := data.foldl (processRepoAuth now) ⟨[], List.replicate WEEKS 0, []⟩
  finalize now st.repos st.wc st.pages

/-- The unauthenticated fallback path of main, as a function of the run time
and of the fetched public events.  cutoff = now - 12 weeks. -/
def runFallback (now : Int) (events : List Event) : Output :=
  let cutoff := now - 12 * weekSeconds
  let st := events.foldl (processEvent now cutoff) ⟨[], List.replicate WEEKS 0⟩
  finalize now st.repos st.wc []

/-! Paginated fetchers.  The remote API is an oracle from the page number to
a page outcome; fuel bounds the unbounded while loops.  A page request can
fail in two ways: an HTTP status error (urllib raises HTTPError, which the
loops catch with except HTTPError and treat as end of data) or any other
transport failure such as DNS or connection errors (urllib raises URLError
or OSError, which no handler catches, so the exception propagates out of the
fetcher and aborts the run).  The fetchers therefore return an Except: ok
with the accumulated records, or error () for an uncaught exception. -/

/-- Outcome of one page request that did not return records. -/
inductive PageError where
  | httpError
  | transportError
deriving DecidableEq, Repr

/-- Loop body shared by fetch_all_repos and fetch_repo_commits: request page
pageNum; an HTTPError stops the loop keeping the accumulator, any other
transport error propagates uncaught, an empty page stops the loop, a full
page (100 records) continues to the next page, a short page is kept and
stops it. -/
def fetchLoop {R : Type} (pages : Nat → Except PageError (List R)) :
    Nat → Nat → List R → Except Unit (List R)
  | 0, _, acc => .ok acc
  | fuel + 1, pageNum, acc =>
    match pages pageNum with
    | .error .httpError => .ok acc
    | .error .transportError => .error ()
    | .ok recs =>
      if recs.isEmpty then .ok acc
      else if recs.length < 100 then .ok (acc ++ recs)
      else fetchLoop pages fuel (pageNum + 1) (acc ++ recs)

/-- fetch_all_repos: unbounded pagination starting at page 1. -/
def fetch_all_repos {R : Type} (pages : Nat → Except PageError (List R)) (fuel : Nat) :
    Except Unit (List R) :=
  fetchLoop pages fuel 1 []

/-- fetch_repo_commits: the same unbounded pagination starting at page 1. -/
def fetch_repo_commits {R : Type} (pages : Nat → Except PageError (List R)) (fuel : Nat) :
    Except Unit (List R) :=
  fetchLoop pages fuel 1 []

/-- Loop of fetch_public_events over the remaining page numbers: an HTTPError
or an empty page stops it, any other transport error propagates uncaught;
any nonempty page is kept and the loop continues. -/
def eventsLoop {R : Type} (pages : Nat → Except PageError (List R)) :
    List Nat → List R → Except Unit (List R)
  | [], acc => .ok acc
  | p :: ps, acc =>
    match pages p with
    | .error .httpError => .ok acc
    | .error .transportError => .error ()
    | .ok recs => if recs.isEmpty then .ok acc else eventsLoop pages ps (acc ++ recs)

/-- fetch_public_events: pages 1, 2, 3 only (range(1, 4)). -/
def fetch_public_events {R : Type} (pages : Nat → Except PageError (List R)) :
    Except Unit (List R) :=
  eventsLoop pages [1, 2, 3] []

/-- The records of a page response, an error counting as no records. -/
def okPage {R : Type} (r : Except PageError (List R)) : List R :=
  match r with
  | .error _ => []
  | .ok l => l

/-- In-order concatenation of the records of n consecutive pages starting at
page start. -/
def pagesConcat {R : Type} (pages : Nat → Except PageError (List R)) : Nat → Nat → List R
  | _, 0 => []
  | start, n + 1 => okPage (pages start) ++ pagesConcat pages (start + 1) n

/-- Sum of the commits fields of a summary list. -/
def reposSum (l : List RepoSummary) : Nat := (l.map (fun s => s.commits)).sum

/-- Commits count recorded for key k: the commits field of the first summary
with that fullName, 0 when absent. -/
def commitsOf (l : List RepoSummary) (k : String) : Nat :=
  match l with
  | [] => 0
  | s :: rest => if s.fullName = k then s.commits else commitsOf rest k

/-- The week-bucket formula as the specification words it: index
11 - floor(age / 604800), discarded when outside [0, 11]. -/
def specWeekBucket (now date : Int) : Option Nat :=
  let b := 11 - Int.fdiv (now - date) weekSeconds
  if 0 ≤ b ∧ b ≤ 11 then some b.toNat else none

/-! Helper lemmas. -/

/-- A summary record with its isOwn flag consistent with its owner field. -/
def ownOK (s : RepoSummary) : Prop := s.isOwn = (s.owner == GITHUB_USER)

theorem processRepoAuth_pages (now : Int) (st : AuthState) (rc : RepoInfo × List Commit) :
    (processRepoAuth now st rc).pages =
      if pagesQualifies rc.1 then st.pages ++ [pagesEntry rc.1] else st.pages := by
  rcases rc with ⟨r, cs⟩
  cases cs <;> rfl

theorem mem_upsert {l : List RepoSummary} {s p : RepoSummary}
    (h : p ∈ upsertSummary l s) : p ∈ l ∨ p = s := by
  induction l with
  | nil =>
    simp only [upsertSummary, List.mem_singleton] at h
    exact Or.inr h
  | cons x xs ih =>
    simp only [upsertSummary] at h
    by_cases hx : x.fullName = s.fullName
    · rw [if_pos hx] at h
      rcases List.mem_cons.mp h with h1 | h2
      · exact Or.inr h1
      · exact Or.inl (List.mem_cons_of_mem _ h2)
    · rw [if_neg hx] at h
      rcases List.mem_cons.mp h with h1 | h2
      · exact Or.inl (h1 ▸ List.mem_cons_self _ _)
      · rcases ih h2 with h3 | h4
        · exact Or.inl (List.mem_cons_of_mem _ h3)
        · exact Or.inr h4

theorem mem_addCommitsTo {k : String} {cc : Nat} {t : Int} :
    ∀ {l : List RepoSummary} {p : RepoSummary}, p ∈ addCommitsTo k cc t l →
      ∃ q ∈ l, p.isOwn = q.isOwn ∧ p.owner = q.owner := by
  intro l
  induction l with
  | nil => intro p h; simp [addCommitsTo] at h
  | cons s rest ih =>
    intro p h
    simp only [addCommitsTo] at h
    by_cases hs : s.fullName = k
    · rw [if_pos hs] at h
      rcases List.mem_cons.mp h with h1 | h2
      · exact ⟨s, List.mem_cons_self _ _, by rw [h1], by rw [h1]⟩
      · exact ⟨p, List.mem_cons_of_mem _ h2, rfl, rfl⟩
    · rw [if_neg hs] at h
      rcases List.mem_cons.mp h with h1 | h2
      · exact ⟨s, List.mem_cons_self _ _, by rw [h1], by rw [h1]⟩
      · rcases ih h2 with ⟨q, hq, hq1, hq2⟩
        exact ⟨q, List.mem_cons_of_mem _ hq, hq1, hq2⟩

theorem mem_ensureRepo {e : Event} {l : List RepoSummary} {p : RepoSummary}
    (h : p ∈ ensureRepo e l) : p ∈ l ∨ p = freshSummary e := by
  unfold ensureRepo at h
  by_cases hc : l.any (fun s => s.fullName = e.repo_name)
  · rw [if_pos hc] at h; exact Or.inl h
  · rw [if_neg hc] at h
    rcases List.mem_append.mp h with h1 | h2
    · exact Or.inl h1
    · exact Or.inr (List.mem_singleton.mp h2)

theorem authFold_ownOK (now : Int) :
    ∀ (data : List (RepoInfo × List Commit)) (st : AuthState),
      (∀ s ∈ st.repos, ownOK s) →
      ∀ s ∈ (data.foldl (processRepoAuth now) st).repos, ownOK s := by
  intro data
  induction data with
  | nil => intro st h; simpa using h
  | cons rc rest ih =>
    intro st h
    rw [List.foldl_cons]
    refine ih _ ?_
    intro s hs
    rcases rc with ⟨r, cs⟩
    cases cs with
    | nil => exact h s hs
    | cons c crest =>
      rcases mem_upsert hs with h1 | h2
      · exact h s h1
      · rw [h2]; rfl

theorem fallFold_ownOK (now cutoff : Int) :
    ∀ (events : List Event) (st : FallState),
      (∀ s ∈ st.repos, ownOK s) →
      ∀ s ∈ (events.foldl (processEvent now cutoff) st).repos, ownOK s := by
  intro events
  induction events with
  | nil => intro st h; simpa using h
  | cons e rest ih =>
    intro st h
    rw [List.foldl_cons]
    refine ih _ ?_
    intro s hs
    unfold processEvent at hs
    by_cases h1 : e.type ≠ "PushEvent"
    · rw [if_pos h1] at hs; exact h s hs
    · rw [if_neg h1] at hs
      by_cases h2 : e.created_at < cutoff
      · rw [if_pos h2] at hs; exact h s hs
      · rw [if_neg h2] at hs
        rcases mem_addCommitsTo hs with ⟨q, hq, hOwn, hOwner⟩
        rcases mem_ensureRepo hq with h3 | h4
        · unfold ownOK; rw [hOwn, hOwner]; exact h q h3
        · unfold ownOK; rw [hOwn, hOwner, h4]; rfl

theorem keyLe_total (a : List Nat) : ∀ b : List Nat, keyLe a b = true ∨ keyLe b a = true := by
  induction a with
  | nil => intro b; exact Or.inl rfl
  | cons x xs ih =>
    intro b
    cases b with
    | nil => exact Or.inr rfl
    | cons y ys =>
      rcases Nat.lt_trichotomy x y with h | h | h
      · left; simp [keyLe, h]
      · subst h
        rcases ih ys with h1 | h1
        · left; simpa [keyLe] using h1
        · right; simpa [keyLe] using h1
      · right; simp [keyLe, h]

theorem keyLe_trans (a : List Nat) : ∀ b c : List Nat,
    keyLe a b = true → keyLe b c = true → keyLe a c = true := by
  induction a with
  | nil => intro b c _ _; rfl
  | cons x xs ih =>
    intro b c h1 h2
    cases b with
    | nil => simp [keyLe] at h1
    | cons y ys =>
      cases c with
      | nil => simp [keyLe] at h2
      | cons z zs =>
        simp only [keyLe] at h1 h2 ⊢
        split_ifs at h1 h2 ⊢ with hxy hyx hyz hzy hxz hzx
        all_goals first
          | rfl
          | omega
          | (exact ih ys zs (by assumption) (by assumption))

theorem authFold_pages (now : Int) :
    ∀ (data : List (RepoInfo × List Commit)) (st : AuthState) (p : PagesSite),
      p ∈ (data.foldl (processRepoAuth now) st).pages →
      p ∈ st.pages ∨ ∃ rc ∈ data, pagesQualifies rc.1 = true ∧ p = pagesEntry rc.1 := by
  intro data
  induction data with
  | nil => intro st p h; exact Or.inl (by simpa using h)
  | cons rc rest ih =>
    intro st p h
    rw [List.foldl_cons] at h
    rcases ih _ p h with h1 | ⟨rc', hmem, hq, hp⟩
    · rw [processRepoAuth_pages] at h1
      by_cases hq : pagesQualifies rc.1 = true
      · rw [if_pos (by simpa using hq)] at h1
        rcases List.mem_append.mp h1 with h2 | h3
        · exact Or.inl h2
        · exact Or.inr ⟨rc, List.mem_cons_self _ _, hq, List.mem_singleton.mp h3⟩
      · rw [if_neg (by simpa using hq)] at h1
        exact Or.inl h1
    · exact Or.inr ⟨rc', List.mem_cons_of_mem _ hmem, hq, hp⟩

theorem pagesQualifies_props {r : RepoInfo} (h : pagesQualifies r = true) :
    r.has_pages = true ∧ r.fork = false ∧ r.name ≠ rootSiteName := by
  unfold pagesQualifies at h
  simp only [Bool.and_eq_true, Bool.not_eq_true', decide_eq_true_eq] at h
  exact ⟨h.1.1, h.1.2, h.2⟩

/-! Claim theorems. -/

/-- C9: in the fallback path (credential absent) the pages sequence of the
output document is empty: Pages sites are discovered only in the
authenticated repository loop. -/
theorem fallback_pages_empty (now : Int) (events : List Event) :
    (runFallback now events).pages = [] := rfl

/-- C6: in every output document, on both paths, the repos sequence is sorted
by commits descending: each adjacent pair satisfies
repos[i].commits >= repos[i+1].commits. -/
theorem repos_sorted_desc (now : Int) (data : List (RepoInfo × List Commit))
    (events : List Event) :
    List.Chain' (fun a b : RepoSummary => b.commits ≤ a.commits) (runAuth now data).repos ∧
    List.Chain' (fun a b : RepoSummary => b.commits ≤ a.commits) (runFallback now events).repos := by
  haveI htot : IsTotal RepoSummary (fun a b => b.commits ≤ a.commits) :=
    ⟨fun a b => Nat.le_total b.commits a.commits⟩
  haveI htrans : IsTrans RepoSummary (fun a b => b.commits ≤ a.commits) :=
    ⟨fun _ _ _ hab hbc => le_trans hbc hab⟩
  constructor <;>
    exact List.Pairwise.chain' (List.sorted_insertionSort _ _)

/-- C10: every summary in the output of either path has isOwn true exactly
when its owner equals the configured user name. -/
theorem isOwn_iff_owner (now : Int) (data : List (RepoInfo × List Commit))
    (events : List Event) :
    (∀ r ∈ (runAuth now data).repos, r.isOwn = (r.owner == GITHUB_USER)) ∧
    (∀ r ∈ (runFallback now events).repos, r.isOwn = (r.owner == GITHUB_USER)) := by
  constructor
  · intro r hr
    have hmem : r ∈ (data.foldl (processRepoAuth now) ⟨[], List.replicate WEEKS 0, []⟩).repos := by
      have hperm := List.perm_insertionSort
        (fun a b : RepoSummary => b.commits ≤ a.commits)
        (data.foldl (processRepoAuth now) ⟨[], List.replicate WEEKS 0, []⟩).repos
      exact hperm.mem_iff.mp hr
    exact authFold_ownOK now data _ (by intro s hs; simp at hs) r hmem
  · intro r hr
    have hmem : r ∈ ((events.foldl (processEvent now (now - 12 * weekSeconds))
        ⟨[], List.replicate WEEKS 0⟩)).repos := by
      have hperm := List.perm_insertionSort
        (fun a b : RepoSummary => b.commits ≤ a.commits)
        ((events.foldl (processEvent now (now - 12 * weekSeconds))
          ⟨[], List.replicate WEEKS 0⟩)).repos
      exact hperm.mem_iff.mp hr
    exact fallFold_ownOK now _ _ _ (by intro s hs; simp at hs) r hmem

/-- Witness for C10: a concrete fallback run containing one summary, where
isOwn is true and the owner is the configured user. -/
theorem isOwn_iff_owner_witness :
    (RepoSummary.mk "radaiko/x" "x" "radaiko" true 1 0).isOwn =
      ((RepoSummary.mk "radaiko/x" "x" "radaiko" true 1 0).owner == GITHUB_USER) :=
  (isOwn_iff_owner 7257600 [] [⟨"PushEvent", 0, "radaiko/x", 0⟩]).2
    (RepoSummary.mk "radaiko/x" "x" "radaiko" true 1 0) (by decide)

/-- C7: in every output document the pages sequence is sorted ascending by
lowercased name for all adjacent pairs, every entry stems from a non-fork
repository with Pages enabled, no entry is the root profile-site repository,
and the fallback path has no pages at all. -/
theorem pages_sorted_and_filtered (now : Int) (data : List (RepoInfo × List Commit))
    (events : List Event) :
    List.Chain' pageLe (runAuth now data).pages ∧
    (∀ p ∈ (runAuth now data).pages, p.name ≠ rootSiteName ∧
      ∃ rc ∈ data, rc.1.has_pages = true ∧ rc.1.fork = false ∧ p = pagesEntry rc.1) ∧
    (runFallback now events).pages = [] := by
  haveI htot : IsTotal PagesSite pageLe := ⟨fun p q => keyLe_total _ _⟩
  haveI htrans : IsTrans PagesSite pageLe := ⟨fun _ _ _ h1 h2 => keyLe_trans _ _ _ h1 h2⟩
  refine ⟨?_, ?_, rfl⟩
  · exact List.Pairwise.chain' (List.sorted_insertionSort pageLe
      ((data.foldl (processRepoAuth now) ⟨[], List.replicate WEEKS 0, []⟩).pages))
  · intro p hp
    have hmem : p ∈ ((data.foldl (processRepoAuth now) ⟨[], List.replicate WEEKS 0, []⟩)).pages :=
      (List.perm_insertionSort pageLe _).mem_iff.mp hp
    rcases authFold_pages now data _ p hmem with h1 | ⟨rc, hrc, hq, hpe⟩
    · simp at h1
    · obtain ⟨hpg, hfk, hname⟩ := pagesQualifies_props hq
      refine ⟨?_, rc, hrc, hpg, hfk, hpe⟩
      rw [hpe]
      exact hname

/-- Witness for C7: a concrete authenticated run with one qualifying Pages
repository; its single pages entry is not the root site and stems from a
non-fork repository with Pages enabled. -/
theorem pages_sorted_and_filtered_witness :
    (PagesSite.mk "x" "https://radaiko.github.io/x/" "" "").name ≠ rootSiteName ∧
    ∃ rc ∈ [((RepoInfo.mk "a/x" "x" "a" true false none none), ([] : List Commit))],
      rc.1.has_pages = true ∧ rc.1.fork = false ∧
      PagesSite.mk "x" "https://radaiko.github.io/x/" "" "" = pagesEntry rc.1 :=
  (pages_sorted_and_filtered 0
      [((RepoInfo.mk "a/x" "x" "a" true false none none), ([] : List Commit))] []).2.1
    (PagesSite.mk "x" "https://radaiko.github.io/x/" "" "") (by decide)

/-- C1 counterexample: a commit dated one second after the run time.  The
spec formula 11 - floor(age / 604800) gives index 12 and discards the
record, but the code (Python int() truncates toward zero) counts it in
bucket 11. -/
theorem weekBucket_counterexample :
    specWeekBucket 0 1 = none ∧
    (runAuth 0 [((RepoInfo.mk "a/x" "x" "a" false false none none), [⟨1⟩])]).weeklyCommits =
      [0, 0, 0, 0, 0, 0, 0, 0, 0, 0, 0, 1] := by decide

/-- C1 (amended): the bucket index is 11 - trunc(age / 604800) with trunc
rounding toward zero, records whose truncated index falls outside [0, 11]
contribute to no bucket, every bucket index used is at most 11, and for
nonnegative ages the truncated index agrees with the floor formula of the
spec. -/
theorem weekBucket_range_and_floor (now date : Int) :
    (∀ b, weekBucket now date = some b → b ≤ 11) ∧
    (0 ≤ now - date → weekBucket now date = specWeekBucket now date) := by
  constructor
  · intro b hb
    simp only [weekBucket] at hb
    split_ifs at hb with h
    cases hb
    omega
  · intro hage
    have hsub : Int.fdiv (now - date) weekSeconds = Int.tdiv (now - date) weekSeconds :=
      Int.fdiv_eq_tdiv hage (by norm_num [weekSeconds])
    simp only [weekBucket, specWeekBucket, hsub]
    split_ifs
    all_goals first
      | rfl
      | omega

/-- Witness for C1: at run time 10 with a commit dated 3 the bucket used is
11 and the truncated index agrees with the floor formula. -/
theorem weekBucket_range_and_floor_witness :
    11 ≤ 11 ∧ weekBucket 10 3 = specWeekBucket 10 3 :=
  ⟨(weekBucket_range_and_floor 10 3).1 11 (by decide),
   (weekBucket_range_and_floor 10 3).2 (by decide)⟩

theorem processRepoAuth_repos (now : Int) (st : AuthState) (rc : RepoInfo × List Commit) :
    (processRepoAuth now st rc).repos =
      match rc.2 with
      | [] => st.repos
      | c :: rest => upsertSummary st.repos (mkSummary rc.1 c rest) := by
  rcases rc with ⟨r, cs⟩
  cases cs <;> rfl

theorem authFold_repos_indep (now now' : Int) :
    ∀ (data : List (RepoInfo × List Commit)) (st st' : AuthState),
      st.repos = st'.repos →
      (data.foldl (processRepoAuth now) st).repos =
      (data.foldl (processRepoAuth now') st').repos := by
  intro data
  induction data with
  | nil => intro st st' h; simpa using h
  | cons rc rest ih =>
    intro st st' h
    rw [List.foldl_cons, List.foldl_cons]
    apply ih
    rw [processRepoAuth_repos, processRepoAuth_repos, h]

/-- C8 (amended): two runs at different times over identical fetched data
produce different generatedAt values on either path; on the authenticated
path the repos sequences are identical.  On the fallback path repos, and on
both paths weeklyCommits, need not be identical, because the cutoff filter
and the bucketing are measured backward from the run's now, as the
counterexample shows. -/
theorem rerun_same_data (h : now₁ ≠ now₂) (data : List (RepoInfo × List Commit))
    (events : List Event) :
    (runAuth now₁ data).generatedAt ≠ (runAuth now₂ data).generatedAt ∧
    (runFallback now₁ events).generatedAt ≠ (runFallback now₂ events).generatedAt ∧
    (runAuth now₁ data).repos = (runAuth now₂ data).repos := by
  refine ⟨h, h, ?_⟩
  show List.insertionSort (fun a b : RepoSummary => b.commits ≤ a.commits)
      (data.foldl (processRepoAuth now₁) ⟨[], List.replicate WEEKS 0, []⟩).repos =
    List.insertionSort (fun a b : RepoSummary => b.commits ≤ a.commits)
      (data.foldl (processRepoAuth now₂) ⟨[], List.replicate WEEKS 0, []⟩).repos
  rw [authFold_repos_indep now₁ now₂ data ⟨[], List.replicate WEEKS 0, []⟩
    ⟨[], List.replicate WEEKS 0, []⟩ rfl]

/-- Witness for C8: two empty runs at times 0 and 1. -/
theorem rerun_same_data_witness :
    (runAuth 0 []).generatedAt ≠ (runAuth 1 []).generatedAt ∧
    (runFallback 0 []).generatedAt ≠ (runFallback 1 []).generatedAt ∧
    (runAuth 0 []).repos = (runAuth 1 []).repos :=
  rerun_same_data (by decide) [] []

/-- C8 counterexample: over identical fetched data, the histogram and, on
the fallback path, even repos change with the run time.  One authenticated
commit at time 0 moves from bucket 11 (run at 0) to bucket 10 (run at
604800) while repos stays identical; one push event at time 0 is aggregated
by a fallback run at 7257600 (cutoff 0) but skipped by a run at 7862400
(cutoff 604800), so its repository vanishes from repos.  This refutes the
claim that runs over identical remote data yield identical repos and
weeklyCommits. -/
theorem rerun_weekly_shift :
    ((0 : Int) ≠ 604800) ∧
    (runAuth 0 [((RepoInfo.mk "a/x" "x" "a" false false none none), [⟨0⟩])]).repos =
      (runAuth 604800 [((RepoInfo.mk "a/x" "x" "a" false false none none), [⟨0⟩])]).repos ∧
    (runAuth 0 [((RepoInfo.mk "a/x" "x" "a" false false none none), [⟨0⟩])]).weeklyCommits ≠
      (runAuth 604800 [((RepoInfo.mk "a/x" "x" "a" false false none none), [⟨0⟩])]).weeklyCommits ∧
    ((7257600 : Int) ≠ 7862400) ∧
    (runFallback 7257600 [⟨"PushEvent", 0, "radaiko/x", 0⟩]).repos ≠
      (runFallback 7862400 [⟨"PushEvent", 0, "radaiko/x", 0⟩]).repos := by
  decide

theorem getD_set_self (l : List Nat) : ∀ (i k : Nat), i < l.length →
    (l.set i k).getD i 0 = k := by
  induction l with
  | nil => intro i k h; simp at h
  | cons x xs ih =>
    intro i k h
    cases i with
    | zero => rfl
    | succ j => exact ih j k (by simpa using h)

theorem weekBucket_lt (now date : Int) (i : Nat) (h : weekBucket now date = some i) :
    i < 12 := by
  simp only [weekBucket] at h
  split_ifs at h with hc
  cases h
  omega

theorem ensure_any (e : Event) (l : List RepoSummary) :
    (ensureRepo e l).any (fun s => s.fullName = e.repo_name) = true := by
  unfold ensureRepo
  split_ifs with hc
  · exact hc
  · simp [freshSummary]

theorem commitsOf_append_fresh (e : Event) : ∀ l : List RepoSummary,
    l.any (fun s => s.fullName = e.repo_name) = false →
    commitsOf (l ++ [freshSummary e]) e.repo_name = commitsOf l e.repo_name := by
  intro l
  induction l with
  | nil => intro _; simp [commitsOf, freshSummary]
  | cons s rest ih =>
    intro h
    simp only [List.any_cons, Bool.or_eq_false_iff] at h
    have hne : ¬ s.fullName = e.repo_name := by simpa using h.1
    simp only [List.cons_append, commitsOf, if_neg hne]
    exact ih h.2

theorem commitsOf_ensureRepo (e : Event) (l : List RepoSummary) :
    commitsOf (ensureRepo e l) e.repo_name = commitsOf l e.repo_name := by
  unfold ensureRepo
  split_ifs with hc
  · rfl
  · exact commitsOf_append_fresh e l (by simpa using hc)

theorem commitsOf_addCommitsTo (k : String) (cc : Nat) (t : Int) :
    ∀ l : List RepoSummary, l.any (fun s => s.fullName = k) = true →
    commitsOf (addCommitsTo k cc t l) k = commitsOf l k + cc := by
  intro l
  induction l with
  | nil => intro h; simp at h
  | cons s rest ih =>
    intro h
    by_cases hs : s.fullName = k
    · simp only [addCommitsTo, if_pos hs, commitsOf]
    · have h' : rest.any (fun s => s.fullName = k) = true := by
        simpa [hs] using h
      simp only [addCommitsTo, if_neg hs, commitsOf]
      exact ih h'

/-- C5 counterexample: a push event with an empty embedded commit list dated
exactly at the cutoff.  It passes the cutoff filter and adds 1 to its
repository's count, but its week index is 12, so no histogram bucket
receives the 1, refuting the claim as stated. -/
theorem pushEvent_cutoff_counterexample :
    reposSum (runFallback 7257600 [⟨"PushEvent", 0, "radaiko/x", 0⟩]).repos = 1 ∧
    (runFallback 7257600 [⟨"PushEvent", 0, "radaiko/x", 0⟩]).weeklyCommits.sum = 0 := by
  decide

/-- C5 (amended): a push event that passes the cutoff filter, carries an
empty embedded commit list, and whose truncated week index is in range
contributes exactly 1 to the owning repository's commits count and exactly 1
to its week bucket. -/
theorem pushEvent_empty_payload (now cutoff : Int) (st : FallState) (e : Event) (i : Nat)
    (h1 : e.type = "PushEvent") (h2 : ¬ e.created_at < cutoff)
    (h3 : e.payload_commits = 0) (h4 : weekBucket now e.created_at = some i)
    (h5 : st.wc.length = 12) :
    commitsOf (processEvent now cutoff st e).repos e.repo_name =
      commitsOf st.repos e.repo_name + 1 ∧
    (processEvent now cutoff st e).wc.getD i 0 = st.wc.getD i 0 + 1 := by
  have hstep : processEvent now cutoff st e =
      { repos := addCommitsTo e.repo_name 1 e.created_at (ensureRepo e st.repos)
        wc := bucketAdd st.wc (weekBucket now e.created_at) 1 } := by
    unfold processEvent
    rw [if_neg (fun hne => hne h1), if_neg h2, h3]
    rfl
  rw [hstep, h4]
  constructor
  · exact (commitsOf_addCommitsTo e.repo_name 1 e.created_at (ensureRepo e st.repos)
      (ensure_any e st.repos)).trans
      (by rw [commitsOf_ensureRepo])
  · show (st.wc.set i (st.wc.getD i 0 + 1)).getD i 0 = st.wc.getD i 0 + 1
    exact getD_set_self st.wc i _ (by rw [h5]; exact weekBucket_lt now e.created_at i h4)

/-- Witness for C5: an event at the run time itself with an empty commit
list; bucket 11 and the repository count both advance by exactly 1. -/
theorem pushEvent_empty_payload_witness :
    commitsOf (processEvent 604800 0 ⟨[], List.replicate 12 0⟩
        ⟨"PushEvent", 604800, "r/x", 0⟩).repos "r/x" =
      commitsOf ([] : List RepoSummary) "r/x" + 1 ∧
    (processEvent 604800 0 ⟨[], List.replicate 12 0⟩
        ⟨"PushEvent", 604800, "r/x", 0⟩).wc.getD 11 0 =
      (List.replicate 12 0 : List Nat).getD 11 0 + 1 :=
  pushEvent_empty_payload 604800 0 ⟨[], List.replicate 12 0⟩
    ⟨"PushEvent", 604800, "r/x", 0⟩ 11 rfl (by decide) rfl (by decide) (by decide)

theorem isEmpty_false_of_length {R : Type} {l : List R} (h : 0 < l.length) :
    l.isEmpty = false := by
  cases l
  · simp at h
  · rfl

theorem fetchLoop_full_then_http {R : Type} (pages : Nat → Except PageError (List R)) :
    ∀ (n pageNum fuel : Nat) (acc : List R), n < fuel →
      (∀ i, i < n → ∃ l, pages (pageNum + i) = .ok l ∧ l.length = 100) →
      pages (pageNum + n) = .error .httpError →
      fetchLoop pages fuel pageNum acc = .ok (acc ++ pagesConcat pages pageNum n) := by
  intro n
  induction n with
  | zero =>
    intro pageNum fuel acc hfuel _ herr
    have herr' : pages pageNum = .error .httpError := by simpa using herr
    cases fuel with
    | zero => omega
    | succ f => simp [fetchLoop, herr', pagesConcat]
  | succ m ih =>
    intro pageNum fuel acc hfuel hfull herr
    obtain ⟨l, hok, hlen⟩ := hfull 0 (Nat.succ_pos m)
    have hok' : pages pageNum = .ok l := by simpa using hok
    cases fuel with
    | zero => omega
    | succ f =>
      have hne : l.isEmpty = false := isEmpty_false_of_length (by omega)
      have hns : ¬ l.length < 100 := by omega
      simp only [fetchLoop, hok']
      rw [if_neg (by simp [hne]), if_neg hns]
      rw [ih (pageNum + 1) f (acc ++ l) (by omega)
        (fun i hi => by
          obtain ⟨l', hl', hlen'⟩ := hfull (i + 1) (by omega)
          exact ⟨l', by rw [show pageNum + 1 + i = pageNum + (i + 1) by omega]; exact hl', hlen'⟩)
        (by rw [show pageNum + 1 + m = pageNum + (m + 1) by omega]; exact herr)]
      simp [pagesConcat, okPage, hok', List.append_assoc]

theorem fetchLoop_full_then_transport {R : Type} (pages : Nat → Except PageError (List R)) :
    ∀ (n pageNum fuel : Nat) (acc : List R), n < fuel →
      (∀ i, i < n → ∃ l, pages (pageNum + i) = .ok l ∧ l.length = 100) →
      pages (pageNum + n) = .error .transportError →
      fetchLoop pages fuel pageNum acc = .error () := by
  intro n
  induction n with
  | zero =>
    intro pageNum fuel acc hfuel _ herr
    have herr' : pages pageNum = .error .transportError := by simpa using herr
    cases fuel with
    | zero => omega
    | succ f => simp [fetchLoop, herr']
  | succ m ih =>
    intro pageNum fuel acc hfuel hfull herr
    obtain ⟨l, hok, hlen⟩ := hfull 0 (Nat.succ_pos m)
    have hok' : pages pageNum = .ok l := by simpa using hok
    cases fuel with
    | zero => omega
    | succ f =>
      have hne : l.isEmpty = false := isEmpty_false_of_length (by omega)
      have hns : ¬ l.length < 100 := by omega
      simp only [fetchLoop, hok']
      rw [if_neg (by simp [hne]), if_neg hns]
      exact ih (pageNum + 1) f (acc ++ l) (by omega)
        (fun i hi => by
          obtain ⟨l', hl', hlen'⟩ := hfull (i + 1) (by omega)
          exact ⟨l', by rw [show pageNum + 1 + i = pageNum + (i + 1) by omega]; exact hl', hlen'⟩)
        (by rw [show pageNum + 1 + m = pageNum + (m + 1) by omega]; exact herr)

theorem fetchLoop_full_then_short {R : Type} (pages : Nat → Except PageError (List R)) :
    ∀ (n pageNum fuel : Nat) (acc : List R), n < fuel →
      (∀ i, i < n → ∃ l, pages (pageNum + i) = .ok l ∧ l.length = 100) →
      (∃ l, pages (pageNum + n) = .ok l ∧ l.length < 100) →
      fetchLoop pages fuel pageNum acc = .ok (acc ++ pagesConcat pages pageNum (n + 1)) := by
  intro n
  induction n with
  | zero =>
    intro pageNum fuel acc hfuel _ hlast
    obtain ⟨lst, hok, hshort⟩ := hlast
    have hok' : pages pageNum = .ok lst := by simpa using hok
    cases fuel with
    | zero => omega
    | succ f =>
      rcases lst with _ | ⟨x, xs⟩
      · simp [fetchLoop, hok', pagesConcat, okPage]
      · simp only [fetchLoop, hok', pagesConcat, okPage]
        rw [if_neg (by simp), if_pos hshort]
        simp
  | succ m ih =>
    intro pageNum fuel acc hfuel hfull hlast
    obtain ⟨l, hok, hlen⟩ := hfull 0 (Nat.succ_pos m)
    have hok' : pages pageNum = .ok l := by simpa using hok
    cases fuel with
    | zero => omega
    | succ f =>
      have hne : l.isEmpty = false := isEmpty_false_of_length (by omega)
      have hns : ¬ l.length < 100 := by omega
      simp only [fetchLoop, hok']
      rw [if_neg (by simp [hne]), if_neg hns]
      rw [ih (pageNum + 1) f (acc ++ l) (by omega)
        (fun i hi => by
          obtain ⟨l', hl', hlen'⟩ := hfull (i + 1) (by omega)
          exact ⟨l', by rw [show pageNum + 1 + i = pageNum + (i + 1) by omega]; exact hl', hlen'⟩)
        (by
          obtain ⟨l', hl', hlen'⟩ := hlast
          exact ⟨l', by rw [show pageNum + 1 + m = pageNum + (m + 1) by omega]; exact hl', hlen'⟩)]
      simp [pagesConcat, okPage, hok', List.append_assoc]

/-- Page oracle with page 1 full and an HTTP error at every later page. -/
def c3hPages : Nat → Except PageError (List Nat) :=
  fun p => if p = 1 then .ok (List.range 100) else .error .httpError

/-- Page oracle with page 1 full and a non-HTTP transport error (URLError)
at every later page. -/
def c3tPages : Nat → Except PageError (List Nat) :=
  fun p => if p = 1 then .ok (List.range 100) else .error .transportError

/-- C3 counterexample: a transport error at page 2.  The loops catch only
HTTPError, so the URLError propagates out of every fetcher and aborts the
run instead of silently returning the records of page 1, refuting the claim
that for every transport or HTTP error the fetch silently stops and returns
the accumulated records. -/
theorem transport_error_propagates :
    c3tPages 2 = .error PageError.transportError ∧
    fetch_all_repos c3tPages 2 = .error () ∧
    fetch_repo_commits c3tPages 2 = .error () ∧
    fetch_public_events c3tPages = .error () ∧
    (Except.error () : Except Unit (List Nat)) ≠ .ok (List.range 100) := by
  refine ⟨rfl, rfl, rfl, rfl, ?_⟩
  intro h
  exact Except.noConfusion h

/-- C3 (amended): only HTTP status errors are absorbed.  When an HTTPError
occurs at page k, each fetcher silently stops and returns exactly the
records accumulated from the pages fetched before the error, without
retrying or surfacing it; when any other transport error occurs at page k,
the exception is not caught and propagates out of the fetcher, aborting the
run.  The public-events fetcher requests at most pages 1-3 and reaches page
k whenever the earlier pages are nonempty. -/
theorem fetch_error_behavior {R : Type} (pages : Nat → Except PageError (List R))
    (k fuel : Nat) :
    (1 ≤ k → k ≤ fuel →
      (∀ p, 1 ≤ p → p < k → ∃ l, pages p = .ok l ∧ l.length = 100) →
      pages k = .error .httpError →
      fetch_all_repos pages fuel = .ok (pagesConcat pages 1 (k - 1)) ∧
      fetch_repo_commits pages fuel = .ok (pagesConcat pages 1 (k - 1))) ∧
    (1 ≤ k → k ≤ 3 →
      (∀ p, 1 ≤ p → p < k → ∃ l, pages p = .ok l ∧ l ≠ []) →
      pages k = .error .httpError →
      fetch_public_events pages = .ok (pagesConcat pages 1 (k - 1))) ∧
    (1 ≤ k → k ≤ fuel →
      (∀ p, 1 ≤ p → p < k → ∃ l, pages p = .ok l ∧ l.length = 100) →
      pages k = .error .transportError →
      fetch_all_repos pages fuel = .error () ∧
      fetch_repo_commits pages fuel = .error ()) ∧
    (1 ≤ k → k ≤ 3 →
      (∀ p, 1 ≤ p → p < k → ∃ l, pages p = .ok l ∧ l ≠ []) →
      pages k = .error .transportError →
      fetch_public_events pages = .error ()) := by
  refine ⟨?_, ?_, ?_, ?_⟩
  · intro hk hfuel hfull herr
    have hmain : fetchLoop pages fuel 1 [] = .ok ([] ++ pagesConcat pages 1 (k - 1)) :=
      fetchLoop_full_then_http pages (k - 1) 1 fuel [] (by omega)
        (fun i hi => hfull (1 + i) (by omega) (by omega))
        (by rw [show 1 + (k - 1) = k by omega]; exact herr)
    exact ⟨by simpa [fetch_all_repos] using hmain,
           by simpa [fetch_repo_commits] using hmain⟩
  · intro hk hk3 hne herr
    interval_cases k
    · simp [fetch_public_events, eventsLoop, herr, pagesConcat]
    · obtain ⟨l1, h1, hn1⟩ := hne 1 (by omega) (by omega)
      have he1 : l1.isEmpty = false := isEmpty_false_of_length (List.length_pos.mpr hn1)
      simp [fetch_public_events, eventsLoop, h1, he1, herr, pagesConcat, okPage]
    · obtain ⟨l1, h1, hn1⟩ := hne 1 (by omega) (by omega)
      obtain ⟨l2, h2, hn2⟩ := hne 2 (by omega) (by omega)
      have he1 : l1.isEmpty = false := isEmpty_false_of_length (List.length_pos.mpr hn1)
      have he2 : l2.isEmpty = false := isEmpty_false_of_length (List.length_pos.mpr hn2)
      simp [fetch_public_events, eventsLoop, h1, he1, h2, he2, herr, pagesConcat, okPage,
        List.append_assoc]
  · intro hk hfuel hfull herr
    have hmain : fetchLoop pages fuel 1 [] = .error () :=
      fetchLoop_full_then_transport pages (k - 1) 1 fuel [] (by omega)
        (fun i hi => hfull (1 + i) (by omega) (by omega))
        (by rw [show 1 + (k - 1) = k by omega]; exact herr)
    exact ⟨by simpa [fetch_all_repos] using hmain,
           by simpa [fetch_repo_commits] using hmain⟩
  · intro hk hk3 hne herr
    interval_cases k
    · simp [fetch_public_events, eventsLoop, herr]
    · obtain ⟨l1, h1, hn1⟩ := hne 1 (by omega) (by omega)
      have he1 : l1.isEmpty = false := isEmpty_false_of_length (List.length_pos.mpr hn1)
      simp [fetch_public_events, eventsLoop, h1, he1, herr]
    · obtain ⟨l1, h1, hn1⟩ := hne 1 (by omega) (by omega)
      obtain ⟨l2, h2, hn2⟩ := hne 2 (by omega) (by omega)
      have he1 : l1.isEmpty = false := isEmpty_false_of_length (List.length_pos.mpr hn1)
      have he2 : l2.isEmpty = false := isEmpty_false_of_length (List.length_pos.mpr hn2)
      simp [fetch_public_events, eventsLoop, h1, he1, h2, he2, herr]

/-- Witness for C3: with a full page 1, an HTTP error at page 2 makes all
three fetchers return exactly the records of page 1, while a transport
error at page 2 makes all three propagate it. -/
theorem fetch_error_behavior_witness :
    (fetch_all_repos c3hPages 2 = .ok (pagesConcat c3hPages 1 1) ∧
     fetch_repo_commits c3hPages 2 = .ok (pagesConcat c3hPages 1 1)) ∧
    fetch_public_events c3hPages = .ok (pagesConcat c3hPages 1 1) ∧
    (fetch_all_repos c3tPages 2 = .error () ∧
     fetch_repo_commits c3tPages 2 = .error ()) ∧
    fetch_public_events c3tPages = .error () :=
  ⟨(fetch_error_behavior c3hPages 2 2).1 (by decide) (by decide)
      (fun p h1 h2 => by
        have hp : p = 1 := by omega
        subst hp
        exact ⟨List.range 100, rfl, by simp⟩)
      rfl,
   (fetch_error_behavior c3hPages 2 2).2.1 (by decide) (by decide)
      (fun p h1 h2 => by
        have hp : p = 1 := by omega
        subst hp
        exact ⟨List.range 100, rfl, by simp⟩)
      rfl,
   (fetch_error_behavior c3tPages 2 2).2.2.1 (by decide) (by decide)
      (fun p h1 h2 => by
        have hp : p = 1 := by omega
        subst hp
        exact ⟨List.range 100, rfl, by simp⟩)
      rfl,
   (fetch_error_behavior c3tPages 2 2).2.2.2 (by decide) (by decide)
      (fun p h1 h2 => by
        have hp : p = 1 := by omega
        subst hp
        exact ⟨List.range 100, rfl, by simp⟩)
      rfl⟩

/-- Page oracle for the C4 counterexample: a short nonempty page 1 followed
by another nonempty page 2. -/
def c4Pages : Nat → Except PageError (List Nat) :=
  fun p =>
    if p = 1 then .ok (List.range 50)
    else if p = 2 then .ok (List.range 70)
    else .error .httpError

/-- C4 counterexample: the public-events fetcher does NOT stop at a page with
fewer than 100 records; after a 50-record page 1 it still requests page 2
and returns 120 records, refuting the claim that each paginated fetcher
stops as soon as a page returns fewer than 100 records. -/
theorem events_short_page_counterexample :
    okPage (c4Pages 1) = List.range 50 ∧ (List.range 50).length < 100 ∧
    fetch_public_events c4Pages = .ok (List.range 50 ++ List.range 70) ∧
    List.range 50 ++ List.range 70 ≠ List.range 50 :=
  ⟨by decide, by decide, rfl, by decide⟩

/-- C4 (amended): the repository and commit fetchers request successive pages
of size 100 and stop at the first page with fewer than 100 records (an empty
page included), returning the in-order concatenation of all records
received; the public-events fetcher requests pages 1 through 3 only (at most
300 records) and stops early only on an empty page or an HTTP error, not on
a short nonempty page. -/
theorem fetch_pagination_contract {R : Type} (pages : Nat → Except PageError (List R))
    (k fuel : Nat) :
    (1 ≤ k → k ≤ fuel →
      (∀ p, 1 ≤ p → p < k → ∃ l, pages p = .ok l ∧ l.length = 100) →
      (∃ l, pages k = .ok l ∧ l.length < 100) →
      fetch_all_repos pages fuel = .ok (pagesConcat pages 1 k) ∧
      fetch_repo_commits pages fuel = .ok (pagesConcat pages 1 k)) ∧
    ((∀ p, 1 ≤ p → p ≤ 3 → ∃ l, pages p = .ok l ∧ l ≠ []) →
      fetch_public_events pages = .ok (pagesConcat pages 1 3)) := by
  constructor
  · intro hk hfuel hfull hlast
    have hmain : fetchLoop pages fuel 1 [] = .ok ([] ++ pagesConcat pages 1 ((k - 1) + 1)) :=
      fetchLoop_full_then_short pages (k - 1) 1 fuel [] (by omega)
        (fun i hi => hfull (1 + i) (by omega) (by omega))
        (by rw [show 1 + (k - 1) = k by omega]; exact hlast)
    rw [show (k - 1) + 1 = k by omega] at hmain
    exact ⟨by simpa [fetch_all_repos] using hmain,
           by simpa [fetch_repo_commits] using hmain⟩
  · intro hok
    obtain ⟨l1, h1, hn1⟩ := hok 1 (by omega) (by omega)
    obtain ⟨l2, h2, hn2⟩ := hok 2 (by omega) (by omega)
    obtain ⟨l3, h3, hn3⟩ := hok 3 (by omega) (by omega)
    have he1 : l1.isEmpty = false := isEmpty_false_of_length (List.length_pos.mpr hn1)
    have he2 : l2.isEmpty = false := isEmpty_false_of_length (List.length_pos.mpr hn2)
    have he3 : l3.isEmpty = false := isEmpty_false_of_length (List.length_pos.mpr hn3)
    simp [fetch_public_events, eventsLoop, h1, he1, h2, he2, h3, he3, pagesConcat, okPage,
      List.append_assoc]

/-- Page oracle for the C4 witness: page 1 full, later pages short and
nonempty. -/
def c4wPages : Nat → Except PageError (List Nat) :=
  fun p => if p = 1 then .ok (List.range 100) else .ok (List.range 40)

/-- Witness for C4: the unbounded fetchers return pages 1-2 and stop at the
short page 2; the events fetcher returns all three nonempty pages. -/
theorem fetch_pagination_contract_witness :
    (fetch_all_repos c4wPages 2 = .ok (pagesConcat c4wPages 1 2) ∧
     fetch_repo_commits c4wPages 2 = .ok (pagesConcat c4wPages 1 2)) ∧
    fetch_public_events c4wPages = .ok (pagesConcat c4wPages 1 3) :=
  ⟨(fetch_pagination_contract c4wPages 2 2).1 (by decide) (by decide)
      (fun p h1 h2 => by
        have hp : p = 1 := by omega
        subst hp
        exact ⟨List.range 100, rfl, by simp⟩)
      ⟨List.range 40, rfl, by simp⟩,
   (fetch_pagination_contract c4wPages 2 2).2
      (fun p h1 h2 => by
        by_cases hp : p = 1
        · subst hp
          exact ⟨List.range 100, rfl, by simp⟩
        · exact ⟨List.range 40, by simp [c4wPages, hp], by simp⟩)⟩

/-- Whether key k is present in the summary list. -/
def hasKey (l : List RepoSummary) (k : String) : Bool := l.any (fun s => s.fullName = k)

theorem sum_set_getD (l : List Nat) : ∀ (i k : Nat), i < l.length →
    (l.set i (l.getD i 0 + k)).sum = l.sum + k := by
  induction l with
  | nil => intro i k h; simp at h
  | cons x xs ih =>
    intro i k h
    cases i with
    | zero =>
      show ((x + k) :: xs).sum = (x :: xs).sum + k
      simp [List.sum_cons]
      omega
    | succ j =>
      have hj : j < xs.length := by simpa using h
      show (x :: xs.set j (xs.getD j 0 + k)).sum = (x :: xs).sum + k
      rw [List.sum_cons, List.sum_cons, ih j k hj]
      omega

theorem bucketAdd_length (wc : List Nat) (b : Option Nat) (k : Nat) :
    (bucketAdd wc b k).length = wc.length := by
  cases b <;> simp [bucketAdd]

theorem bucketAdd_sum_some (wc : List Nat) (i k : Nat) (h : i < wc.length) :
    (bucketAdd wc (some i) k).sum = wc.sum + k :=
  sum_set_getD wc i k h

theorem commitsFold_sum (now : Int) : ∀ (cs : List Commit) (wc : List Nat),
    wc.length = 12 → (∀ c ∈ cs, (weekBucket now c.date).isSome = true) →
    (cs.foldl (fun w cm => bucketAdd w (weekBucket now cm.date) 1) wc).sum = wc.sum + cs.length ∧
    (cs.foldl (fun w cm => bucketAdd w (weekBucket now cm.date) 1) wc).length = 12 := by
  intro cs
  induction cs with
  | nil => intro wc h12 _; exact ⟨by simp, h12⟩
  | cons c rest ih =>
    intro wc h12 hall
    rw [List.foldl_cons]
    obtain ⟨i, hi⟩ : ∃ i, weekBucket now c.date = some i := by
      have hs := hall c (List.mem_cons_self _ _)
      cases hw : weekBucket now c.date
      · rw [hw] at hs; simp at hs
      · exact ⟨_, rfl⟩
    have h12' : (bucketAdd wc (weekBucket now c.date) 1).length = 12 := by
      rw [bucketAdd_length]; exact h12
    obtain ⟨hsum, hlen⟩ := ih (bucketAdd wc (weekBucket now c.date) 1) h12'
      (fun c' hc' => hall c' (List.mem_cons_of_mem _ hc'))
    refine ⟨?_, hlen⟩
    rw [hsum, hi, bucketAdd_sum_some wc i 1
      (by rw [h12]; exact weekBucket_lt now c.date i hi)]
    simp [List.length_cons]
    omega

theorem upsert_fresh : ∀ {l : List RepoSummary} {s : RepoSummary},
    hasKey l s.fullName = false → upsertSummary l s = l ++ [s] := by
  intro l
  induction l with
  | nil => intro s _; rfl
  | cons x xs ih =>
    intro s h
    simp only [hasKey, List.any_cons, Bool.or_eq_false_iff] at h
    simp only [upsertSummary, if_neg (by simpa using h.1)]
    rw [ih (by simp [hasKey, h.2])]
    rfl

theorem reposSum_append (l : List RepoSummary) (s : RepoSummary) :
    reposSum (l ++ [s]) = reposSum l + s.commits := by
  simp [reposSum]

theorem authFold_sum (now : Int) : ∀ (data : List (RepoInfo × List Commit)) (st : AuthState),
    st.wc.length = 12 →
    st.wc.sum = reposSum st.repos →
    (∀ rc ∈ data, ∀ c ∈ rc.2, (weekBucket now c.date).isSome = true) →
    (∀ rc ∈ data, hasKey st.repos rc.1.full_name = false) →
    (data.map (fun rc => rc.1.full_name)).Nodup →
    (data.foldl (processRepoAuth now) st).wc.sum =
      reposSum (data.foldl (processRepoAuth now) st).repos := by
  intro data
  induction data with
  | nil => intro st _ hsum _ _ _; simpa using hsum
  | cons rc rest ih =>
    intro st h12 hsum hall hfresh hnd
    rw [List.foldl_cons]
    have hndHead : rc.1.full_name ∉ rest.map (fun rc' => rc'.1.full_name) :=
      (List.nodup_cons.mp (by simpa using hnd)).1
    have hndTail : (rest.map (fun rc' => rc'.1.full_name)).Nodup :=
      (List.nodup_cons.mp (by simpa using hnd)).2
    rcases rc with ⟨r, cs⟩
    cases cs with
    | nil =>
      apply ih (processRepoAuth now st (r, []))
      · exact h12
      · exact hsum
      · exact fun rc' h' c hc => hall rc' (List.mem_cons_of_mem _ h') c hc
      · exact fun rc' h' => hfresh rc' (List.mem_cons_of_mem _ h')
      · exact hndTail
    | cons c crest =>
      have hfr : hasKey st.repos (mkSummary r c crest).fullName = false :=
        hfresh (r, c :: crest) (List.mem_cons_self _ _)
      have hrepos : (processRepoAuth now st (r, c :: crest)).repos =
          st.repos ++ [mkSummary r c crest] := by
        show upsertSummary st.repos (mkSummary r c crest) = _
        exact upsert_fresh hfr
      obtain ⟨hwsum, hwlen⟩ := commitsFold_sum now (c :: crest) st.wc h12
        (hall (r, c :: crest) (List.mem_cons_self _ _))
      apply ih (processRepoAuth now st (r, c :: crest))
      · exact hwlen
      · show (processRepoAuth now st (r, c :: crest)).wc.sum = _
        have : (processRepoAuth now st (r, c :: crest)).wc.sum =
            st.wc.sum + (c :: crest).length := hwsum
        rw [this, hrepos, reposSum_append, hsum]
        rfl
      · exact fun rc' h' c' hc' => hall rc' (List.mem_cons_of_mem _ h') c' hc'
      · intro rc' h'
        have h1 : hasKey st.repos rc'.1.full_name = false :=
          hfresh rc' (List.mem_cons_of_mem _ h')
        have h2 : ¬ r.full_name = rc'.1.full_name := by
          intro he
          exact hndHead (he ▸ List.mem_map_of_mem (fun rc'' => rc''.1.full_name) h')
        rw [hrepos]
        simp only [hasKey, List.any_append, List.any_cons, List.any_nil,
          Bool.or_false, Bool.or_eq_false_iff]
        exact ⟨h1, by simpa [mkSummary] using h2⟩
      · exact hndTail

theorem reposSum_addCommitsTo (k : String) (cc : Nat) (t : Int) :
    ∀ l : List RepoSummary, l.any (fun s => s.fullName = k) = true →
    reposSum (addCommitsTo k cc t l) = reposSum l + cc := by
  intro l
  induction l with
  | nil => intro h; simp at h
  | cons s rest ih =>
    intro h
    by_cases hs : s.fullName = k
    · simp only [addCommitsTo, if_pos hs]
      simp [reposSum]
      omega
    · have h' : rest.any (fun s => s.fullName = k) = true := by simpa [hs] using h
      simp only [addCommitsTo, if_neg hs]
      simp only [reposSum, List.map_cons, List.sum_cons] at ih ⊢
      rw [ih h']
      omega

theorem reposSum_ensureRepo (e : Event) (l : List RepoSummary) :
    reposSum (ensureRepo e l) = reposSum l := by
  unfold ensureRepo
  split_ifs
  · rfl
  · simp [reposSum, freshSummary]

theorem fallFold_sum (now cutoff : Int) : ∀ (events : List Event) (st : FallState),
    st.wc.length = 12 →
    st.wc.sum = reposSum st.repos →
    (∀ e ∈ events, e.type = "PushEvent" → ¬ e.created_at < cutoff →
      (weekBucket now e.created_at).isSome = true) →
    (events.foldl (processEvent now cutoff) st).wc.sum =
      reposSum (events.foldl (processEvent now cutoff) st).repos := by
  intro events
  induction events with
  | nil => intro st _ hsum _; simpa using hsum
  | cons e rest ih =>
    intro st h12 hsum hall
    rw [List.foldl_cons]
    by_cases h1 : e.type ≠ "PushEvent"
    · have hstep : processEvent now cutoff st e = st := by
        unfold processEvent; rw [if_pos h1]
      rw [hstep]
      exact ih st h12 hsum (fun e' h' => hall e' (List.mem_cons_of_mem _ h'))
    · by_cases h2 : e.created_at < cutoff
      · have hstep : processEvent now cutoff st e = st := by
          unfold processEvent; rw [if_neg h1, if_pos h2]
        rw [hstep]
        exact ih st h12 hsum (fun e' h' => hall e' (List.mem_cons_of_mem _ h'))
      · have hstep : processEvent now cutoff st e =
            { repos := addCommitsTo e.repo_name
                (if e.payload_commits = 0 then 1 else e.payload_commits)
                e.created_at (ensureRepo e st.repos)
              wc := bucketAdd st.wc (weekBucket now e.created_at)
                (if e.payload_commits = 0 then 1 else e.payload_commits) } := by
          unfold processEvent; rw [if_neg h1, if_neg h2]
        obtain ⟨i, hi⟩ : ∃ i, weekBucket now e.created_at = some i := by
          have hs := hall e (List.mem_cons_self _ _) (not_ne_iff.mp h1) h2
          cases hw : weekBucket now e.created_at
          · rw [hw] at hs; simp at hs
          · exact ⟨_, rfl⟩
        apply ih (processEvent now cutoff st e)
        · rw [hstep]
          show (bucketAdd st.wc (weekBucket now e.created_at) _).length = 12
          rw [bucketAdd_length]; exact h12
        · rw [hstep]
          show (bucketAdd st.wc (weekBucket now e.created_at) _).sum = reposSum _
          rw [hi, bucketAdd_sum_some st.wc i _
              (by rw [h12]; exact weekBucket_lt now e.created_at i hi),
            reposSum_addCommitsTo _ _ _ _ (ensure_any e st.repos),
            reposSum_ensureRepo, hsum]
        · exact fun e' h' => hall e' (List.mem_cons_of_mem _ h')

theorem reposSum_sort (l : List RepoSummary) :
    reposSum (List.insertionSort (fun a b => b.commits ≤ a.commits) l) = reposSum l := by
  unfold reposSum
  exact List.Perm.sum_eq (List.Perm.map _ (List.perm_insertionSort _ l))

/-- C2 counterexample: one commit dated exactly 12 weeks before the run time
(admitted by the since=cutoff fetch filter).  It is counted in the
repository's commits field but its week index is 12, so the histogram stays
empty: the sum of weeklyCommits (0) differs from the sum of the commits
fields (1). -/
theorem histogram_sum_counterexample :
    reposSum (runAuth 7257600
      [((RepoInfo.mk "a/x" "x" "a" false false none none), [⟨0⟩])]).repos = 1 ∧
    (runAuth 7257600
      [((RepoInfo.mk "a/x" "x" "a" false false none none), [⟨0⟩])]).weeklyCommits.sum = 0 := by
  decide

/-- C2 (amended): on both paths the sum of the 12 weeklyCommits entries
always equals totalCommits, and it equals the sum of the commits fields over
all RepoSummary entries provided every aggregated commit (and every
qualifying push event) has its truncated week index inside [0, 11] and, on
the authenticated path, the fetched repositories have pairwise distinct full
names. -/
theorem histogram_sum_eq (now : Int) (data : List (RepoInfo × List Commit)) (events : List Event)
    (h1 : ∀ rc ∈ data, ∀ c ∈ rc.2, (weekBucket now c.date).isSome = true)
    (h2 : (data.map (fun rc => rc.1.full_name)).Nodup)
    (h3 : ∀ e ∈ events, e.type = "PushEvent" → ¬ e.created_at < now - 12 * weekSeconds →
      (weekBucket now e.created_at).isSome = true) :
    ((runAuth now data).weeklyCommits.sum = reposSum (runAuth now data).repos ∧
      (runAuth now data).totalCommits = (runAuth now data).weeklyCommits.sum) ∧
    ((runFallback now events).weeklyCommits.sum = reposSum (runFallback now events).repos ∧
      (runFallback now events).totalCommits = (runFallback now events).weeklyCommits.sum) := by
  refine ⟨⟨?_, rfl⟩, ?_, rfl⟩
  · show (data.foldl (processRepoAuth now) ⟨[], List.replicate WEEKS 0, []⟩).wc.sum =
      reposSum (List.insertionSort (fun a b : RepoSummary => b.commits ≤ a.commits)
        (data.foldl (processRepoAuth now) ⟨[], List.replicate WEEKS 0, []⟩).repos)
    rw [reposSum_sort]
    exact authFold_sum now data ⟨[], List.replicate WEEKS 0, []⟩ (by simp [WEEKS])
      (by simp [reposSum]) h1 (fun rc _ => rfl) h2
  · show (events.foldl (processEvent now (now - 12 * weekSeconds))
        ⟨[], List.replicate WEEKS 0⟩).wc.sum =
      reposSum (List.insertionSort (fun a b : RepoSummary => b.commits ≤ a.commits)
        (events.foldl (processEvent now (now - 12 * weekSeconds))
          ⟨[], List.replicate WEEKS 0⟩).repos)
    rw [reposSum_sort]
    exact fallFold_sum now (now - 12 * weekSeconds) events ⟨[], List.replicate WEEKS 0⟩
      (by simp [WEEKS]) (by simp [reposSum]) h3

/-- Witness for C2: one in-window commit on the authenticated path and one
in-window push event on the fallback path. -/
theorem histogram_sum_eq_witness :
    ((runAuth 1209600 [((RepoInfo.mk "a/x" "x" "a" false false none none),
        [⟨604800⟩])]).weeklyCommits.sum =
      reposSum (runAuth 1209600 [((RepoInfo.mk "a/x" "x" "a" false false none none),
        [⟨604800⟩])]).repos ∧
      (runAuth 1209600 [((RepoInfo.mk "a/x" "x" "a" false false none none),
        [⟨604800⟩])]).totalCommits =
      (runAuth 1209600 [((RepoInfo.mk "a/x" "x" "a" false false none none),
        [⟨604800⟩])]).weeklyCommits.sum) ∧
    ((runFallback 1209600 [⟨"PushEvent", 604800, "radaiko/x", 2⟩]).weeklyCommits.sum =
      reposSum (runFallback 1209600 [⟨"PushEvent", 604800, "radaiko/x", 2⟩]).repos ∧
      (runFallback 1209600 [⟨"PushEvent", 604800, "radaiko/x", 2⟩]).totalCommits =
      (runFallback 1209600 [⟨"PushEvent", 604800, "radaiko/x", 2⟩]).weeklyCommits.sum) :=
  histogram_sum_eq 1209600 [((RepoInfo.mk "a/x" "x" "a" false false none none), [⟨604800⟩])]
    [⟨"PushEvent", 604800, "radaiko/x", 2⟩] (by decide) (by decide) (by decide)

end Activity
